import Mathlib

/-!
Verification of the Brown-corpus part-of-speech frequency analyzer
(src/main.py, class BrownCorpusAnalyzer).

Strings are embedded as lists of characters (`Str`).  Each Python regex is
translated into a decidable predicate on `Str`; the translation is stated
next to each definition.  The three `defaultdict` counters of the analyzer
are embedded as insertion-ordered association lists, exactly the observable
content of the Python dictionaries, and every mutating statement of the
source becomes an explicit state-passing function.
-/

abbrev Str := List Char

def str (s : String) : Str := s.data

/-- Characters stripped by `word.strip('\x27\x22 ')` (line 108): apostrophe
(39), double quote (34), space (32). -/
def isQuoteSpace (c : Char) : Bool := c.toNat = 39 || c.toNat = 34 || c.toNat = 32

/-- Python `str.strip()` whitespace (line 77 `tag.strip()` and line 191
`content.strip()`): space, tab, newline, carriage return, vertical tab,
form feed. -/
def isPySpace (c : Char) : Bool :=
  c.toNat = 32 || c.toNat = 9 || c.toNat = 10 || c.toNat = 13 || c.toNat = 11 || c.toNat = 12

/-- Membership in Python `string.punctuation` (line 115), which is exactly the
ASCII ranges 33..47, 58..64, 91..96 and 123..126. -/
def isPunct (c : Char) : Bool :=
  (33 ≤ c.toNat && c.toNat ≤ 47) || (58 ≤ c.toNat && c.toNat ≤ 64) ||
    (91 ≤ c.toNat && c.toNat ≤ 96) || (123 ≤ c.toNat && c.toNat ≤ 126)

/-- ASCII decimal digit, the characters matched by the regex class `\d` on the
corpus text. -/
def isDigitC (c : Char) : Bool := 48 ≤ c.toNat && c.toNat ≤ 57

/-- The regex class `[a-z]`. -/
def isLowerC (c : Char) : Bool := 97 ≤ c.toNat && c.toNat ≤ 122

/-- ASCII case folding of one character, as `content.lower()` (line 190) acts
on the ASCII corpus text. -/
def lowerChar (c : Char) : Char :=
  if 65 ≤ c.toNat ∧ c.toNat ≤ 90 then Char.ofNat (c.toNat + 32) else c

/-- Python `s.strip(chars)`: drop the characters satisfying `p` from both
ends. -/
def stripBoth (p : Char → Bool) (s : Str) : Str :=
  ((s.dropWhile p).reverse.dropWhile p).reverse

/-- Python `s.split(sep)` for a one-character separator: `splitOnChar c s`
returns the (possibly empty) pieces of `s` between occurrences of `c`; on an
empty string it returns `[[]]`, exactly as Python returns `['']`. -/
def splitOnChar (sep : Char) : Str → List Str
  | [] => [[]]
  | c :: cs =>
    if c = sep then [] :: splitOnChar sep cs
    else
      match splitOnChar sep cs with
      | [] => [[c]]
      | t :: ts => (c :: t) :: ts

/-- Like `splitOnChar` but splitting on every character satisfying `p`. -/
def splitOnPred (p : Char → Bool) : Str → List Str
  | [] => [[]]
  | c :: cs =>
    if p c then [] :: splitOnPred p cs
    else
      match splitOnPred p cs with
      | [] => [[c]]
      | t :: ts => (c :: t) :: ts

/-- Python `sep.join(parts)` for a one-character separator (line 161). -/
def joinChar (sep : Char) : List Str → Str
  | [] => []
  | [s] => s
  | s :: rest => s ++ sep :: joinChar sep rest

/-- Python `s.rsplit(sep, 1)` (line 164): split at the last occurrence of
`sep`.  Only used when `sep` occurs in `s`. -/
def rsplitLast (sep : Char) (s : Str) : Str × Str :=
  let post := s.reverse.takeWhile (fun c => ¬ c = sep)
  ((s.reverse.drop (post.length + 1)).reverse, post.reverse)

/-- Nonempty and all digits: the language of `\d+`. -/
def isDigitStr (s : Str) : Bool := decide (s ≠ []) && s.all isDigitC

/-- Nonempty and all lowercase letters: the language of `[a-z]+`. -/
def isLowerStr (s : Str) : Bool := decide (s ≠ []) && s.all isLowerC

/-- The language of `re.match(r'^\d+/\d+$', s)` (lines 87, 120 context: a
simple fraction): exactly two nonempty digit groups joined by one slash.
Equivalent to the regex because a digit group cannot contain a slash. -/
def isFraction (s : Str) : Bool :=
  match splitOnChar '/' s with
  | [a, b] => isDigitStr a && isDigitStr b
  | _ => false

/-- The language of `re.match(r'^\d+(?:-\d+)+$', s)` (line 120): two or more
nonempty digit groups joined by hyphens. -/
def isNumRange (s : Str) : Bool :=
  let parts := splitOnChar '-' s
  decide (2 ≤ parts.length) && parts.all isDigitStr

/-- The language of `re.match(r'^([a-z]+)/([a-z]+)/([a-z]+)$', s)` (line 142):
exactly three nonempty lowercase-alphabetic segments joined by slashes. -/
def matchesSharedTag (s : Str) : Bool :=
  match splitOnChar '/' s with
  | [a, b, c] => isLowerStr a && isLowerStr b && isLowerStr c
  | _ => false

/-- The language of `re.match(r'^\d+(?:/\d+)+/[a-z]+$', s)` (line 159): two or
more nonempty digit groups, then a final nonempty lowercase-alphabetic
segment, all joined by slashes. -/
def matchesMultiNum (s : Str) : Bool :=
  let parts := splitOnChar '/' s
  decide (3 ≤ parts.length) && parts.dropLast.all isDigitStr &&
    (match parts.getLast? with
     | some t => isLowerStr t
     | none => false)

/-- The two-character alternation `(hl|tl|nc)` of the suffix-marker regex. -/
def isSfx (a b : Char) : Bool :=
  (a = 'h' && b = 'l') || (a = 't' && b = 'l') || (a = 'n' && b = 'c')

/-- Whether the regex `-(hl|tl|nc)(?:-|$)` matches at the head of `s`: a
hyphen, one of the two-letter markers, then either end of string or a further
hyphen (which the match consumes). -/
def sfxAt : Str → Bool
  | c :: a :: b :: rest =>
    c = '-' && isSfx a b &&
      (match rest with
       | [] => true
       | d :: _ => d = '-')
  | _ => false

/-- One pass of `re.sub(r'-(hl|tl|nc)(?:-|$)', '', tag)` (line 69): scan left
to right, delete every non-overlapping match (each match removes the hyphen,
the two marker letters, and the following hyphen when present), continuing
after the deleted text.  The fuel argument only bounds the recursion; each
step consumes at least one character, so fuel `s.length` computes the full
pass (`subSuffixFuel_sublist`, `subSuffixAll_shrink`, `stripSfx_no_marker`
below establish the adequacy of the fuel bounds). -/
def subSuffixFuel : Nat → Str → Str
  | 0, s => s
  | _ + 1, [] => []
  | n + 1, c :: cs =>
    if c = '-' then
      match cs with
      | a :: b :: rest =>
        if isSfx a b then
          match rest with
          | [] => []
          | d :: rest2 =>
            if d = '-' then subSuffixFuel n rest2
            else c :: subSuffixFuel n (a :: b :: d :: rest2)
        else c :: subSuffixFuel n (a :: b :: rest)
      | _ => c :: subSuffixFuel n cs
    else c :: subSuffixFuel n cs

def subSuffixAll (s : Str) : Str := subSuffixFuel s.length s

/-- Whether `re.search(r'-(hl|tl|nc)(?:-|$)', s)` finds a match anywhere. -/
def hasSuffixMarker : Str → Bool
  | [] => false
  | c :: cs => sfxAt (c :: cs) || hasSuffixMarker cs

/-- The `while re.search(...): tag = re.sub(...)` loop of lines 68-69, with a
fuel bound.  Each substitution that fires removes at least three characters,
so `s.length` iterations always reach the fixpoint. -/
def stripSfxLoop : Nat → Str → Str
  | 0, s => s
  | n + 1, s => if hasSuffixMarker s then stripSfxLoop n (subSuffixAll s) else s

def stripSfx (s : Str) : Str := stripSfxLoop s.length s

/-- Python `re.sub(r"\x27s$", "", word)` (line 110): remove a trailing
apostrophe-s pair. -/
def stripPossessive (w : Str) : Str :=
  match w.reverse with
  | s :: q :: rest => if s = 's' ∧ q.toNat = 39 then rest.reverse else w
  | _ => w

/-- Lines 68-77 of `clean_pos_tag`: the suffix-stripping loop, the
foreign/cited prefix removal (`tag[3:]`), the splits at `+` and `-`
(`tag.split(c)[0]` is `takeWhile`), and the final `tag.strip()`. -/
def cleanCore (t : Str) : Str :=
  let t1 := stripSfx t
  let t2 :=
    if (str "fw-").isPrefixOf t1 || (str "nc-").isPrefixOf t1 || (str "np-").isPrefixOf t1 then
      t1.drop 3
    else t1
  let t3 := if '+' ∈ t2 then t2.takeWhile (fun c => ¬ c = '+') else t2
  let t4 := if '-' ∈ t3 then t3.takeWhile (fun c => ¬ c = '-') else t3
  stripBoth isPySpace t4

/-- The method `clean_pos_tag` (lines 54-77).  `none` is the discard
signal (the Python `return` with no value on line 67); the final
`return tag.strip() or 'nil'` yields `nil` when the cleaned tag is empty. -/
def clean_pos_tag (t : Str) : Option Str :=
  if t = [] ∨ t = str "nil" then some (str "nil")
  else if '*' ∈ t then none
  else if cleanCore t = [] then some (str "nil")
  else some (cleanCore t)

/-- The method `clean_word` (lines 97-128).  `none` is Python `None`
(discard).  The stop-word check of lines 112-113 is commented out in the
source and therefore absent here. -/
def clean_word (w0 : Str) : Option Str :=
  let w1 := stripBoth isQuoteSpace w0
  let w := stripPossessive w1
  if w ≠ [] ∧ (∀ c ∈ w, isPunct c) then none
  else if '-' ∈ w ∧ isNumRange w then some w
  else if '-' ∈ w ∧ ¬ w.getLast? = some '-' then some w
  else if isFraction w then some w
  else if w = [] then none
  else some w

/-- The literal `self.pos_groups` table (lines 23-35). -/
def pos_groups : List (Str × List Str) :=
  [ (str "NOUN", [str "nn", str "nns", str "np", str "nps", str "nr", str "n$", str "np$",
      str "nns$", str "nr$", str "nrs"]),
    (str "VERB", [str "vb", str "vbd", str "vbg", str "vbn", str "vbz", str "be", str "bed",
      str "bedz", str "beg", str "bem", str "ben", str "ber", str "bez", str "do", str "dod",
      str "doz", str "hv", str "hvd", str "hvg", str "hvn", str "hvz", str "md", str "md*",
      str "do*"]),
    (str "ADJ", [str "jj", str "jjr", str "jjs", str "jjt"]),
    (str "ADV", [str "rb", str "rbr", str "rbt", str "rn", str "ql", str "qls", str "qlp",
      str "wql"]),
    (str "PRON", [str "pp$", str "pp$$", str "ppl", str "ppls", str "ppo", str "pps",
      str "ppss", str "wps", str "wp$", str "wpo"]),
    (str "DET", [str "at", str "dt", str "dti", str "dts", str "dtx", str "wdt"]),
    (str "ADP", [str "in", str "to"]),
    (str "CONJ", [str "cc", str "cs"]),
    (str "NUM", [str "cd", str "od"]) ]

/-- Python dict assignment `d[k] = v`: overwrite the entry if the key exists,
else append it. -/
def alistSet (l : List (Str × Str)) (k v : Str) : List (Str × Str) :=
  match l with
  | [] => [(k, v)]
  | (k2, v2) :: rest => if k2 = k then (k2, v) :: rest else (k2, v2) :: alistSet rest k v

/-- The inverted `self.tag_to_group` map built by the loop of lines 37-40. -/
def tag_to_group : List (Str × Str) :=
  pos_groups.foldl (fun acc p => p.2.foldl (fun acc2 tag => alistSet acc2 tag p.1) acc) []

/-- Association-list lookup, Python `d.get(k)`. -/
def lookupA {β : Type} : List (Str × β) → Str → Option β
  | [], _ => none
  | (k2, v) :: rest, k => if k2 = k then some v else lookupA rest k

/-- The method `get_pos_group` (lines 42-52). -/
def get_pos_group (t : Str) : Str :=
  if t = str "nil" then str "OTHER"
  else
    match lookupA tag_to_group t with
    | some g => g
    | none => str "OTHER"

/-- `defaultdict(int)` increment `d[k] += 1`: bump an existing entry or append
the key with count 1 (Python dicts preserve insertion order). -/
def bump : List (Str × Nat) → Str → List (Str × Nat)
  | [], k => [(k, 1)]
  | (k2, n) :: rest, k => if k2 = k then (k2, n + 1) :: rest else (k2, n) :: bump rest k

/-- `word_pos_counts[w][t] += 1` on the nested defaultdict. -/
def bumpNested : List (Str × List (Str × Nat)) → Str → Str → List (Str × List (Str × Nat))
  | [], w, t => [(w, bump [] t)]
  | (w2, c) :: rest, w, t =>
    if w2 = w then (w2, bump c t) :: rest else (w2, c) :: bumpNested rest w t

/-- The three counters of the analyzer (lines 16-18), all empty at
construction. -/
structure AnalyzerState where
  word_pos_counts : List (Str × List (Str × Nat))
  pos_total_counts : List (Str × Nat)
  grouped_pos_counts : List (Str × Nat)
deriving DecidableEq

def initState : AnalyzerState := ⟨[], [], []⟩

/-- The paired increments `word_pos_counts[w][t] += 1; pos_total_counts[t] += 1`
(lines 92-93, 151-152, 175-176: the two always occur together). -/
def recordPair (st : AnalyzerState) (w t : Str) : AnalyzerState :=
  { st with
    word_pos_counts := bumpNested st.word_pos_counts w t,
    pos_total_counts := bump st.pos_total_counts t }

/-- The increment `grouped_pos_counts[get_pos_group(t)] += 1` (lines 154-155,
178-179). -/
def recordGroup (st : AnalyzerState) (t : Str) : AnalyzerState :=
  { st with grouped_pos_counts := bump st.grouped_pos_counts (get_pos_group t) }

/-- The method `process_compound_word` (lines 79-95).  Returns whether the
word was handled as a compound, and the updated state.  `pos` is the already
cleaned tag its only caller (line 172) passes after the `None` check of lines
169-170, so the Python guard `pos is not None` is always true here; the guard
`if cleaned_word` is Python truthiness of an `Optional[str]`.  Note that this
path does not touch `grouped_pos_counts`. -/
def process_compound_word (st : AnalyzerState) (word : Str) (pos : Str) : Bool × AnalyzerState :=
  if '/' ∈ word ∧ ¬ isFraction word then
    (true,
      (splitOnChar '/' word).foldl
        (fun s part =>
          match clean_word part with
          | some cw => if cw ≠ [] then recordPair s cw pos else s
          | none => s) st)
  else (false, st)

/-- The method `process_tuple` (lines 130-181).  The `try/except` of the
source only logs: no statement in the body raises on the embedded domain
(`rsplit` is reached only when a slash is present), so it is dropped. -/
def process_tuple (st : AnalyzerState) (tok : Str) : AnalyzerState :=
  if tok = [] ∨ ¬ '/' ∈ tok then st
  else if matchesSharedTag tok then
    match splitOnChar '/' tok with
    | [word1, word2, pos] =>
      [word1, word2].foldl
        (fun s w =>
          match clean_word w, clean_pos_tag pos with
          | some cw, some cp => if cw ≠ [] then recordGroup (recordPair s cw cp) cp else s
          | _, _ => s) st
    | _ => st
  else
    let wp : Str × Str :=
      if matchesMultiNum tok then
        (joinChar '/' (splitOnChar '/' tok).dropLast, (splitOnChar '/' tok).getLastD [])
      else rsplitLast '/' tok
    if wp.1 = [] ∨ wp.2 = [] then st
    else
      match clean_pos_tag wp.2 with
      | none => st
      | some cp =>
        let r := process_compound_word st wp.1 cp
        if r.1 then r.2
        else
          match clean_word wp.1 with
          | none => r.2
          | some cw => recordGroup (recordPair r.2 cw cp) cp

/-- `re.split(r"\s+", s)` as applied on line 191: the argument is already
stripped, so collapsing runs of whitespace is dropping the empty pieces of a
single-character split; on the empty string Python returns `['']`. -/
def splitWs (s : Str) : List Str :=
  if s = [] then [[]]
  else (splitOnPred isPySpace s).filter (fun t => ¬ t = [])

/-- The method `process_file_content` (lines 183-192): lowercase, strip,
split on whitespace, process each token. -/
def process_file_content (st : AnalyzerState) (content : Str) : AnalyzerState :=
  (splitWs (stripBoth isPySpace (content.map lowerChar))).foldl process_tuple st

/-- Processing a sequence of tokens from freshly initialized counters. -/
def processTokens (toks : List Str) : AnalyzerState :=
  toks.foldl process_tuple initState

/-- A whole run over a list of file contents.  The analyzer also stores the
stop-word list read in its constructor (line 20); the only use of that list,
the filter of lines 112-113 in `clean_word`, is commented out in the source,
so the parameter is read by nothing. -/
def runAnalyzer (stopwords : List Str) (contents : List Str) : AnalyzerState :=
  contents.foldl process_file_content initState

/-- `sum(d.values())` over a counter. -/
def sumCounter (l : List (Str × Nat)) : Nat := (l.map (fun p => p.2)).sum

/-- `d[k]` with the defaultdict default 0. -/
def lookupCount (l : List (Str × Nat)) (k : Str) : Nat :=
  match lookupA l k with
  | some n => n
  | none => 0

/-- `sum(word_pos_counts[w][t] for w in word_pos_counts)` for a fixed tag. -/
def sumInner (wpc : List (Str × List (Str × Nat))) (t : Str) : Nat :=
  (wpc.map (fun p => lookupCount p.2 t)).sum

/-- A tag free of the wildcard, compound and hyphen markers. -/
def noBad (t : Str) : Prop := '*' ∉ t ∧ '+' ∉ t ∧ '-' ∉ t

/-- `word_pos_counts[w][t]` with the defaultdict default 0. -/
def lookupWordTag (wpc : List (Str × List (Str × Nat))) (w t : Str) : Nat :=
  match lookupA wpc w with
  | some c => lookupCount c t
  | none => 0

/-- The per-word/tag consistency invariant: every per-tag total equals the sum
of that tag's per-word counts. -/
def pairConsistent (st : AnalyzerState) : Prop :=
  ∀ t, lookupCount st.pos_total_counts t = sumInner st.word_pos_counts t

/-- Every tag key of the counters (outer in `pos_total_counts`, inner in
`word_pos_counts`) is free of `*`, `+` and `-`. -/
def cleanKeys (st : AnalyzerState) : Prop :=
  (∀ p ∈ st.pos_total_counts, noBad p.1) ∧
    (∀ q ∈ st.word_pos_counts, ∀ p ∈ q.2, noBad p.1)

/-- States reachable from `s` by the two increment operations of the source,
every recorded tag being an output of `clean_pos_tag`.  Both update paths of
`process_tuple` (and the path of `process_compound_word`) take such steps
only. -/
inductive Reach : AnalyzerState → AnalyzerState → Prop
  | refl (s : AnalyzerState) : Reach s s
  | pair {s s' : AnalyzerState} {x w t : Str} (h : Reach s s')
      (hc : clean_pos_tag x = some t) : Reach s (recordPair s' w t)
  | group {s s' : AnalyzerState} {t : Str} (h : Reach s s') : Reach s (recordGroup s' t)

/-! ### Helper lemmas about the string primitives -/

theorem subSuffixFuel_sublist (n : Nat) : ∀ s : Str, (subSuffixFuel n s).Sublist s := by
  induction n with
  | zero => intro s; exact List.Sublist.refl s
  | succ n ih =>
    intro s
    match s with
    | [] => exact List.Sublist.refl []
    | c :: cs =>
      simp only [subSuffixFuel]
      split
      · match cs with
        | [] => exact List.Sublist.cons₂ c (ih [])
        | [a] => exact List.Sublist.cons₂ c (ih [a])
        | a :: b :: rest =>
          simp only
          split
          · match rest with
            | [] => exact List.nil_sublist _
            | d :: rest2 =>
              simp only
              split
              · exact .cons _ (.cons _ (.cons _ (.cons _ (ih rest2))))
              · exact List.Sublist.cons₂ c (ih (a :: b :: d :: rest2))
          · exact List.Sublist.cons₂ c (ih (a :: b :: rest))
      · exact List.Sublist.cons₂ c (ih cs)

theorem subSuffixAll_sublist (s : Str) : (subSuffixAll s).Sublist s :=
  subSuffixFuel_sublist s.length s

theorem stripSfxLoop_sublist (n : Nat) : ∀ s : Str, (stripSfxLoop n s).Sublist s := by
  induction n with
  | zero => intro s; exact List.Sublist.refl s
  | succ n ih =>
    intro s
    simp only [stripSfxLoop]
    split
    · exact (ih (subSuffixAll s)).trans (subSuffixAll_sublist s)
    · exact List.Sublist.refl s

theorem stripSfx_sublist (s : Str) : (stripSfx s).Sublist s := stripSfxLoop_sublist s.length s

theorem stripBoth_sublist (p : Char → Bool) (s : Str) : (stripBoth p s).Sublist s := by
  have h1 : ((s.dropWhile p).reverse.dropWhile p).reverse.Sublist (s.dropWhile p).reverse.reverse :=
    (List.dropWhile_sublist p).reverse
  rw [List.reverse_reverse] at h1
  exact h1.trans (List.dropWhile_sublist p)

theorem sfxAt_dash (s : Str) (h : sfxAt s = true) : '-' ∈ s := by
  match s with
  | c :: a :: b :: rest =>
    simp only [sfxAt, Bool.and_eq_true, decide_eq_true_eq] at h
    exact h.1.1 ▸ List.mem_cons_self _ _
  | [] => simp [sfxAt] at h
  | [c] => simp [sfxAt] at h
  | [c, a] => simp [sfxAt] at h

theorem marker_dash (s : Str) (h : hasSuffixMarker s = true) : '-' ∈ s := by
  induction s with
  | nil => simp [hasSuffixMarker] at h
  | cons c cs ih =>
    simp only [hasSuffixMarker, Bool.or_eq_true] at h
    rcases h with h | h
    · exact sfxAt_dash _ h
    · exact List.mem_cons_of_mem c (ih h)

theorem hasSuffixMarker_eq_false (s : Str) (h : '-' ∉ s) : hasSuffixMarker s = false := by
  cases hm : hasSuffixMarker s with
  | false => rfl
  | true => exact absurd (marker_dash s hm) h

theorem stripSfxLoop_no_marker (n : Nat) (s : Str) (h : hasSuffixMarker s = false) :
    stripSfxLoop n s = s := by
  cases n with
  | zero => rfl
  | succ n => simp [stripSfxLoop, h]

theorem dropWhile_eq_self_of_head (p : Char → Bool) (l : Str)
    (h : ∀ c, l.head? = some c → p c = false) : l.dropWhile p = l := by
  cases l with
  | nil => rfl
  | cons c cs => simp [List.dropWhile_cons, h c rfl]

theorem head?_dropWhile (p : Char → Bool) (l : Str) :
    ∀ c, (l.dropWhile p).head? = some c → p c = false := by
  induction l with
  | nil => intro c h; simp at h
  | cons a l ih =>
    intro c h
    rw [List.dropWhile_cons] at h
    by_cases hp : p a = true
    · rw [if_pos hp] at h; exact ih c h
    · rw [if_neg hp] at h
      simp only [List.head?_cons, Option.some.injEq] at h
      subst h
      exact Bool.eq_false_iff.mpr hp

theorem stripBoth_trimmed_head (p : Char → Bool) (s : Str) :
    ∀ c, (stripBoth p s).head? = some c → p c = false := by
  intro c hc
  simp only [stripBoth] at hc
  rw [List.head?_reverse] at hc
  rcases List.dropWhile_suffix (l := (s.dropWhile p).reverse) p with ⟨pre, hpre⟩
  have h2 : (s.dropWhile p).reverse.getLast? = some c := by
    rw [← hpre, List.getLast?_append, hc]; rfl
  rw [List.getLast?_reverse] at h2
  exact head?_dropWhile p s c h2

theorem stripBoth_trimmed_last (p : Char → Bool) (s : Str) :
    ∀ c, (stripBoth p s).getLast? = some c → p c = false := by
  intro c hc
  simp only [stripBoth] at hc
  rw [List.getLast?_reverse] at hc
  exact head?_dropWhile p (s.dropWhile p).reverse c hc

theorem stripBoth_eq_self (p : Char → Bool) (l : Str)
    (hh : ∀ c, l.head? = some c → p c = false)
    (hl : ∀ c, l.getLast? = some c → p c = false) : stripBoth p l = l := by
  simp only [stripBoth]
  rw [dropWhile_eq_self_of_head p l hh]
  rw [dropWhile_eq_self_of_head p l.reverse (fun c h => hl c (by rwa [List.head?_reverse] at h))]
  exact List.reverse_reverse l

theorem stripBoth_idem (p : Char → Bool) (s : Str) :
    stripBoth p (stripBoth p s) = stripBoth p s :=
  stripBoth_eq_self p _ (stripBoth_trimmed_head p s) (stripBoth_trimmed_last p s)

/-! ### Helper lemmas about the counters -/

theorem lookupCount_bump (l : List (Str × Nat)) (k0 k : Str) :
    lookupCount (bump l k0) k = lookupCount l k + (if k0 = k then 1 else 0) := by
  induction l with
  | nil =>
    simp only [bump, lookupCount, lookupA]
    split <;> simp_all
  | cons p rest ih =>
    rcases p with ⟨k2, n⟩
    simp only [bump]
    by_cases h2 : k2 = k0
    · subst h2
      simp only [if_pos rfl, lookupCount, lookupA]
      by_cases h3 : k2 = k
      · simp [h3]
      · simp [h3, lookupCount]
    · rw [if_neg h2]
      simp only [lookupCount, lookupA]
      by_cases h3 : k2 = k
      · subst h3
        have : ¬ k0 = k2 := fun h => h2 h.symm
        simp [this]
      · simp only [if_neg h3]
        exact ih

theorem sumCounter_bump (l : List (Str × Nat)) (k : Str) :
    sumCounter (bump l k) = sumCounter l + 1 := by
  induction l with
  | nil => simp [bump, sumCounter]
  | cons p rest ih =>
    rcases p with ⟨k2, n⟩
    simp only [bump]
    split
    · simp [sumCounter]; omega
    · simp only [sumCounter, List.map_cons, List.sum_cons] at ih ⊢
      omega

theorem lookupWordTag_bumpNested (wpc : List (Str × List (Str × Nat))) (w0 t0 w t : Str) :
    lookupWordTag (bumpNested wpc w0 t0) w t =
      lookupWordTag wpc w t + (if w0 = w ∧ t0 = t then 1 else 0) := by
  induction wpc with
  | nil =>
    simp only [bumpNested, lookupWordTag, lookupA]
    by_cases h : w0 = w
    · rw [if_pos h]
      simp only [lookupCount_bump, Option.some.injEq]
      simp [lookupCount, lookupA, h]
    · rw [if_neg h]
      simp [h]
  | cons q rest ih =>
    rcases q with ⟨w2, c⟩
    simp only [bumpNested]
    by_cases h2 : w2 = w0
    · subst h2
      simp only [if_pos rfl, lookupWordTag, lookupA]
      by_cases h3 : w2 = w
      · simp only [if_pos h3, lookupCount_bump]
        subst h3
        simp
      · simp only [if_neg h3]
        have : ¬ (w2 = w ∧ t0 = t) := fun hx => h3 hx.1
        simp [lookupWordTag, this]
    · rw [if_neg h2]
      simp only [lookupWordTag, lookupA]
      by_cases h3 : w2 = w
      · subst h3
        have : ¬ (w0 = w2 ∧ t0 = t) := fun hx => h2 hx.1.symm
        simp [this]
      · simp only [if_neg h3]
        exact ih

theorem sumInner_bumpNested (wpc : List (Str × List (Str × Nat))) (w0 t0 t : Str) :
    sumInner (bumpNested wpc w0 t0) t = sumInner wpc t + (if t0 = t then 1 else 0) := by
  induction wpc with
  | nil =>
    simp only [bumpNested, sumInner, List.map_cons, List.map_nil, List.sum_cons, List.sum_nil]
    rw [lookupCount_bump]
    simp [lookupCount, lookupA]
  | cons q rest ih =>
    rcases q with ⟨w2, c⟩
    simp only [bumpNested]
    split
    · simp only [sumInner, List.map_cons, List.sum_cons, lookupCount_bump]
      omega
    · simp only [sumInner, List.map_cons, List.sum_cons] at ih ⊢
      omega

theorem mem_bump (l : List (Str × Nat)) (k : Str) :
    ∀ p ∈ bump l k, p.1 = k ∨ ∃ n, (p.1, n) ∈ l := by
  induction l with
  | nil => intro p hp; simp only [bump, List.mem_singleton] at hp; left; rw [hp]
  | cons q rest ih =>
    rcases q with ⟨k2, n⟩
    intro p hp
    simp only [bump] at hp
    split at hp
    · rcases List.mem_cons.mp hp with h | h
      · right; exact ⟨n, by rw [h]; exact List.mem_cons_self _ _⟩
      · right; rcases p with ⟨pk, pn⟩; exact ⟨pn, List.mem_cons_of_mem _ h⟩
    · rcases List.mem_cons.mp hp with h | h
      · right; rcases p with ⟨pk, pn⟩
        rcases Prod.mk.injEq .. ▸ h with ⟨h1, h2⟩
        exact ⟨pn, by rw [h]; exact List.mem_cons_self _ _⟩
      · rcases ih p h with h1 | ⟨m, hm⟩
        · left; exact h1
        · right; exact ⟨m, List.mem_cons_of_mem _ hm⟩

theorem mem_bumpNested (wpc : List (Str × List (Str × Nat))) (w t : Str) :
    ∀ q ∈ bumpNested wpc w t, ∀ p ∈ q.2, p.1 = t ∨ ∃ q2 ∈ wpc, ∃ n, (p.1, n) ∈ q2.2 := by
  induction wpc with
  | nil =>
    intro q hq p hp
    simp only [bumpNested, List.mem_singleton] at hq
    rw [hq] at hp
    rcases mem_bump [] t p hp with h | ⟨n, hn⟩
    · left; exact h
    · simp at hn
  | cons q0 rest ih =>
    rcases q0 with ⟨w2, c⟩
    intro q hq p hp
    simp only [bumpNested] at hq
    split at hq
    · rcases List.mem_cons.mp hq with h | h
      · rw [h] at hp
        rcases mem_bump c t p hp with h1 | ⟨n, hn⟩
        · left; exact h1
        · right; exact ⟨(w2, c), List.mem_cons_self _ _, n, hn⟩
      · right; exact ⟨q, List.mem_cons_of_mem _ h, p.2, by rcases p with ⟨a, b⟩; exact hp⟩
    · rcases List.mem_cons.mp hq with h | h
      · right; exact ⟨(w2, c), List.mem_cons_self _ _, p.2, by rw [← h]; rcases p with ⟨a, b⟩; exact hp⟩
      · rcases ih q h p hp with h1 | ⟨q2, hq2, n, hn⟩
        · left; exact h1
        · right; exact ⟨q2, List.mem_cons_of_mem _ hq2, n, hn⟩

theorem foldl_preserve {σ : Type} {α : Type} (P : σ → Prop) (f : σ → α → σ)
    (hf : ∀ s x, P s → P (f s x)) : ∀ (l : List α) (s : σ), P s → P (l.foldl f s) := by
  intro l
  induction l with
  | nil => intro s h; exact h
  | cons x xs ih => intro s h; exact ih (f s x) (hf s x h)

/-! ### Every state produced by token processing is reached by recording steps -/

theorem reach_compound (s0 : AnalyzerState) (x p : Str) (hp : clean_pos_tag x = some p)
    (w : Str) : ∀ st : AnalyzerState, Reach s0 st → Reach s0 (process_compound_word st w p).2 := by
  intro st h
  simp only [process_compound_word]
  split
  · simp only
    refine foldl_preserve (Reach s0) _ ?_ _ st h
    intro s part hs
    rcases hcw : clean_word part with _ | cw
    · simp only [hcw]; exact hs
    · simp only [hcw]
      split
      · exact Reach.pair hs hp
      · exact hs
  · exact h

theorem reach_default_branch (s0 : AnalyzerState) (word pos : Str) (st : AnalyzerState)
    (h : Reach s0 st) :
    Reach s0
      (if word = [] ∨ pos = [] then st
       else
         match clean_pos_tag pos with
         | none => st
         | some cp =>
           if (process_compound_word st word cp).1 = true then (process_compound_word st word cp).2
           else
             match clean_word word with
             | none => (process_compound_word st word cp).2
             | some cw => recordGroup (recordPair (process_compound_word st word cp).2 cw cp) cp) := by
  split
  · exact h
  · rcases hcp : clean_pos_tag pos with _ | cp
    · exact h
    · dsimp only
      split
      · exact reach_compound s0 _ _ hcp _ st h
      · rcases hcw : clean_word word with _ | cw
        · exact reach_compound s0 _ _ hcp _ st h
        · exact Reach.group (Reach.pair (reach_compound s0 _ _ hcp _ st h) hcp)

theorem reach_process_tuple (s0 : AnalyzerState) (st : AnalyzerState) (tok : Str)
    (h : Reach s0 st) : Reach s0 (process_tuple st tok) := by
  simp only [process_tuple]
  split
  · exact h
  · split
    · split
      · refine foldl_preserve (Reach s0) _ ?_ _ st h
        intro s w hs
        rcases hcw : clean_word w with _ | cw
        · simp only [hcw]; exact hs
        · rcases hcp : clean_pos_tag _ with _ | cp
          · simp only [hcw, hcp]; exact hs
          · simp only [hcw, hcp]
            split
            · exact Reach.group (Reach.pair hs hcp)
            · exact hs
      · exact h
    · exact reach_default_branch s0 _ _ st h

theorem reach_processTokens (toks : List Str) : Reach initState (processTokens toks) :=
  foldl_preserve (Reach initState) process_tuple
    (fun s x hx => reach_process_tuple initState s x hx) toks initState (Reach.refl _)

theorem pairConsistent_of_reach {s s' : AnalyzerState} (h : Reach s s')
    (hs : pairConsistent s) : pairConsistent s' := by
  induction h with
  | refl => exact hs
  | pair h hc ih =>
    intro t
    simp only [recordPair]
    rw [lookupCount_bump, sumInner_bumpNested, ih t]
  | group h ih => exact ih

/-! ### The outputs of clean_pos_tag carry no marker characters -/

theorem mem_of_takeWhile_stage {cond : Prop} [Decidable cond] {p : Char → Bool} {l : Str}
    {c : Char} (h : c ∈ (if cond then l.takeWhile p else l)) : c ∈ l := by
  split at h
  · exact (List.takeWhile_sublist p).subset h
  · exact h

theorem mem_of_drop_stage {cond : Prop} [Decidable cond] {n : Nat} {l : Str} {c : Char}
    (h : c ∈ (if cond then l.drop n else l)) : c ∈ l := by
  split at h
  · exact (List.drop_sublist n l).subset h
  · exact h

theorem mem_cleanCore {t : Str} {c : Char} (hc : c ∈ cleanCore t) : c ∈ t := by
  simp only [cleanCore] at hc
  exact (stripSfx_sublist t).subset
    (mem_of_drop_stage (mem_of_takeWhile_stage (mem_of_takeWhile_stage
      ((stripBoth_sublist isPySpace _).subset hc))))

theorem not_mem_split_stage (e : Char) (l : Str) :
    e ∉ (if e ∈ l then l.takeWhile (fun c => ¬ c = e) else l) := by
  by_cases hm : e ∈ l
  · rw [if_pos hm]
    intro hc
    have := List.mem_takeWhile_imp hc
    simp at this
  · rw [if_neg hm]
    exact hm

theorem dash_not_mem_cleanCore (t : Str) : '-' ∉ cleanCore t := by
  intro hc
  simp only [cleanCore] at hc
  exact not_mem_split_stage '-' _ ((stripBoth_sublist isPySpace _).subset hc)

theorem plus_not_mem_cleanCore (t : Str) : '+' ∉ cleanCore t := by
  intro hc
  simp only [cleanCore] at hc
  exact not_mem_split_stage '+' _
    (mem_of_takeWhile_stage ((stripBoth_sublist isPySpace _).subset hc))

theorem star_not_mem_cleanCore {t : Str} (h : '*' ∉ t) : '*' ∉ cleanCore t :=
  fun hc => h (mem_cleanCore hc)

theorem clean_pos_tag_noBad : ∀ (x u : Str), clean_pos_tag x = some u → noBad u := by
  intro x u h
  simp only [clean_pos_tag] at h
  split at h
  · injection h with h; rw [← h]; simp only [noBad]; decide
  · split at h
    · exact absurd h (by simp)
    · rename_i hnil hstar
      split at h
      · injection h with h; rw [← h]; simp only [noBad]; decide
      · injection h with h
        rw [← h]
        exact ⟨star_not_mem_cleanCore hstar, plus_not_mem_cleanCore x, dash_not_mem_cleanCore x⟩

theorem cleanKeys_of_reach {s s' : AnalyzerState} (h : Reach s s') (hs : cleanKeys s) :
    cleanKeys s' := by
  induction h with
  | refl => exact hs
  | pair h hc ih =>
    rcases ih with ⟨ih1, ih2⟩
    have hnb := clean_pos_tag_noBad _ _ hc
    constructor
    · intro p hp
      simp only [recordPair] at hp
      rcases mem_bump _ _ p hp with h1 | ⟨n, hn⟩
      · rw [h1]; exact hnb
      · exact ih1 (p.1, n) hn
    · intro q hq p hp
      simp only [recordPair] at hq
      rcases mem_bumpNested _ _ _ q hq p hp with h1 | ⟨q2, hq2, n, hn⟩
      · rw [h1]; exact hnb
      · exact ih2 q2 hq2 (p.1, n) hn
  | group h ih => exact ih

/-! ### Claim theorems -/

/-- C1: the conservation invariant `sum(PosTotalCounts.values()) ==
sum(GroupedPosCounts.values())` FAILS on the code: processing the single
token `1/2/3/cd` from empty counters routes through
`process_compound_word`, which increments `pos_total_counts` three times
but never touches `grouped_pos_counts`, leaving sums 3 and 0. -/
theorem conservation_fails_on_compound :
    sumCounter (processTokens [str "1/2/3/cd"]).pos_total_counts = 3 ∧
      sumCounter (processTokens [str "1/2/3/cd"]).grouped_pos_counts = 0 := by decide

/-- C2 (counterexample): the token `1/2/3/cd` matches the multi-slash-numeric
form, yet resolving it emits three pairs `(1, cd)`, `(2, cd)`, `(3, cd)` --
the compound-word path splits the word portion -- and not the single pair
`(1/2/3, cd)` the claim specifies. -/
theorem multi_slash_three_groups_not_single_pair :
    process_tuple initState (str "1/2/3/cd") =
      ⟨[(str "1", [(str "cd", 1)]), (str "2", [(str "cd", 1)]), (str "3", [(str "cd", 1)])],
        [(str "cd", 3)], []⟩ ∧
      process_tuple initState (str "1/2/3/cd") ≠
        ⟨[(str "1/2/3", [(str "cd", 1)])], [(str "cd", 1)], [(str "NUM", 1)]⟩ := by decide

/-- C3 (amended): `clean_pos_tag` discards exactly the tags containing the
wildcard `*`; a punctuation tag such as `.` is NOT discarded but returned
unchanged.  A pure-punctuation token such as `./.` is nevertheless dropped,
because `clean_word` discards the all-punctuation word. -/
theorem star_discarded_punctuation_kept :
    (∀ t : Str, '*' ∈ t → clean_pos_tag t = none) ∧
      clean_pos_tag (str ".") = some (str ".") ∧
      ∀ st : AnalyzerState, process_tuple st (str "./.") = st := by
  refine ⟨?_, by decide, fun st => rfl⟩
  intro t h
  have h1 : ¬ (t = [] ∨ t = str "nil") := by
    rintro (rfl | rfl)
    · exact absurd h (List.not_mem_nil _)
    · exact absurd h (by decide)
  simp only [clean_pos_tag, if_neg h1, if_pos h]

/-- C3 witness: the amended theorem applied at the wildcard tag `md*` and at
the punctuation token `./.` on empty counters. -/
theorem star_discarded_punctuation_kept_witness :
    clean_pos_tag (str "md*") = none ∧ process_tuple initState (str "./.") = initState :=
  ⟨star_discarded_punctuation_kept.1 (str "md*") (by decide),
    star_discarded_punctuation_kept.2.2 initState⟩

/-- C3 (counterexample to the claim as stated): `clean_pos_tag` maps the
punctuation literal `.` to itself, not to the discard sentinel `none`. -/
theorem punctuation_tag_not_discarded :
    clean_pos_tag (str ".") = some (str ".") ∧ clean_pos_tag (str ".") ≠ none := by decide

/-- C4: evaluation of the suffix-stripping code on stacked suffixes.  The
regex `-(hl|tl|nc)(?:-|$)` consumes the separating hyphen, so `nn-hl-tl`
normalizes to `nntl` and `nn-tl-hl` to `nnhl`, NOT to `nn` as the spec
states; only the single-suffix forms such as `nn-nc` and `nn-hl` reach
`nn`. -/
theorem stacked_suffix_stripping_eval :
    clean_pos_tag (str "nn-hl-tl") = some (str "nntl") ∧
      clean_pos_tag (str "nn-tl-hl") = some (str "nnhl") ∧
      clean_pos_tag (str "nn-nc") = some (str "nn") ∧
      clean_pos_tag (str "nn-hl") = some (str "nn") ∧
      clean_pos_tag (str "nn-hl-tl") ≠ some (str "nn") := by decide

/-- C5: per-word/tag consistency.  After processing any sequence of tokens
from empty counters, each tag total in `pos_total_counts` equals the sum of
that tag's per-word counts in `word_pos_counts` (tags recorded for no word
have total 0 on both sides). -/
theorem pos_total_eq_sum_word_pos (toks : List Str) (t : Str) :
    lookupCount (processTokens toks).pos_total_counts t =
      sumInner (processTokens toks).word_pos_counts t :=
  pairConsistent_of_reach (reach_processTokens toks) (fun _ => rfl) t

/-- C6: end-to-end scenario.  Processing the single file content
`"the/at dog/nn barks/vbz ./. "` from empty counters drops the final `./.`
token and produces exactly the three stated counters. -/
theorem end_to_end_scenario :
    process_file_content initState (str "the/at dog/nn barks/vbz ./. ") =
      ⟨[(str "the", [(str "at", 1)]), (str "dog", [(str "nn", 1)]),
          (str "barks", [(str "vbz", 1)])],
        [(str "at", 1), (str "nn", 1), (str "vbz", 1)],
        [(str "DET", 1), (str "NOUN", 1), (str "VERB", 1)]⟩ := by decide

/-- C9: stop-word noninterference.  The stop-word list is stored by the
analyzer but read by nothing (the filter of lines 112-113 is commented out),
so two runs over the same file contents with different stop-word lists
produce identical counters. -/
theorem stopwords_noninterference (sw1 sw2 : List Str) (contents : List Str) :
    runAnalyzer sw1 contents = runAnalyzer sw2 contents := rfl

/-- C10: every tag key recorded in `pos_total_counts`, and every inner tag
key of `word_pos_counts`, is an output of `clean_pos_tag` and therefore
contains no `*`, `+` or `-`; in particular the group-table entries `md*` and
`do*` are never recorded. -/
theorem recorded_tags_clean (toks : List Str) (t : Str) (n : Nat) :
    ((t, n) ∈ (processTokens toks).pos_total_counts → noBad t) ∧
      (∀ (w : Str) (c : List (Str × Nat)),
        (w, c) ∈ (processTokens toks).word_pos_counts → (t, n) ∈ c → noBad t) := by
  have hck : cleanKeys (processTokens toks) :=
    cleanKeys_of_reach (reach_processTokens toks)
      ⟨fun p hp => absurd hp (List.not_mem_nil _), fun q hq => absurd hq (List.not_mem_nil _)⟩
  exact ⟨fun hm => hck.1 (t, n) hm, fun w c hwc hm => hck.2 (w, c) hwc (t, n) hm⟩

/-- C10 witness: the invariant applied to the run over the single token
`dog/nn`, whose recorded tag `nn` is marker-free. -/
theorem recorded_tags_clean_witness : noBad (str "nn") :=
  (recorded_tags_clean [str "dog/nn"] (str "nn") 1).1 (by decide)

/-- C7: resolving `and/or/cc` from any state emits exactly the two pairs
`(and, cc)` and `(or, cc)` -- the state change is precisely two
`recordPair`/`recordGroup` steps, one per leading segment, each processed by
its own `clean_word` call -- so `pos_total_counts[cc]` grows by 2 and each of
the two words gains one `cc` count. -/
theorem shared_tag_split_and_or_cc (st : AnalyzerState) :
    process_tuple st (str "and/or/cc") =
      recordGroup (recordPair (recordGroup (recordPair st (str "and") (str "cc")) (str "cc"))
        (str "or") (str "cc")) (str "cc") ∧
    lookupCount (process_tuple st (str "and/or/cc")).pos_total_counts (str "cc") =
      lookupCount st.pos_total_counts (str "cc") + 2 ∧
    lookupWordTag (process_tuple st (str "and/or/cc")).word_pos_counts (str "and") (str "cc") =
      lookupWordTag st.word_pos_counts (str "and") (str "cc") + 1 ∧
    lookupWordTag (process_tuple st (str "and/or/cc")).word_pos_counts (str "or") (str "cc") =
      lookupWordTag st.word_pos_counts (str "or") (str "cc") + 1 := by
  have h0 : process_tuple st (str "and/or/cc") =
      recordGroup (recordPair (recordGroup (recordPair st (str "and") (str "cc")) (str "cc"))
        (str "or") (str "cc")) (str "cc") := rfl
  refine ⟨h0, ?_, ?_, ?_⟩
  · rw [h0]
    simp only [recordGroup, recordPair]
    rw [lookupCount_bump, lookupCount_bump]
    simp
  · rw [h0]
    simp only [recordGroup, recordPair]
    rw [lookupWordTag_bumpNested, lookupWordTag_bumpNested]
    rw [if_pos (by exact ⟨rfl, rfl⟩), if_neg (by decide)]
  · rw [h0]
    simp only [recordGroup, recordPair]
    rw [lookupWordTag_bumpNested, lookupWordTag_bumpNested]
    rw [if_neg (by decide), if_pos (by exact ⟨rfl, rfl⟩)]

/-! ### Idempotence of tag cleaning -/

theorem cleanCore_fixed (u : Str) (hplus : '+' ∉ u) (hdash : '-' ∉ u)
    (hs : stripBoth isPySpace u = u) : cleanCore u = u := by
  have hsfx : stripSfx u = u :=
    stripSfxLoop_no_marker _ _ (hasSuffixMarker_eq_false u hdash)
  have hf : ∀ l : Str, '-' ∈ l → l.isPrefixOf u = false := by
    intro l hl
    cases hp : l.isPrefixOf u
    · rfl
    · exact absurd ((List.isPrefixOf_iff_prefix.mp hp).subset hl) hdash
  have hpre : ((str "fw-").isPrefixOf u || (str "nc-").isPrefixOf u ||
      (str "np-").isPrefixOf u) = false := by
    rw [hf (str "fw-") (by decide), hf (str "nc-") (by decide), hf (str "np-") (by decide)]
    rfl
  simp only [cleanCore, hsfx, hpre, Bool.false_eq_true, if_false]
  rw [if_neg hplus, if_neg hdash]
  exact hs

theorem stripBoth_cleanCore (t : Str) : stripBoth isPySpace (cleanCore t) = cleanCore t := by
  simp only [cleanCore]
  exact stripBoth_idem isPySpace _

/-- C8: idempotence of tag normalization.  Whenever `clean_pos_tag` does not
discard its input, its output is a fixpoint: cleaning it again returns it
unchanged. -/
theorem clean_pos_tag_idempotent (x u : Str) (h : clean_pos_tag x = some u) :
    clean_pos_tag u = some u := by
  have hnb := clean_pos_tag_noBad x u h
  simp only [clean_pos_tag] at h
  split at h
  · injection h with h; rw [← h]; decide
  · split at h
    · exact absurd h (by simp)
    · split at h
      · injection h with h; rw [← h]; decide
      · rename_i h1 h2 h3
        injection h with h
        by_cases hnil : u = str "nil"
        · rw [hnil]; decide
        · have hu_ne : u ≠ [] := by rw [← h]; exact h3
          have hfix : cleanCore u = u :=
            cleanCore_fixed u hnb.2.1 hnb.2.2 (by rw [← h]; exact stripBoth_cleanCore x)
          simp only [clean_pos_tag]
          rw [if_neg (by rintro (hc | hc); exact hu_ne hc; exact hnil hc)]
          rw [if_neg hnb.1, hfix, if_neg hu_ne]

/-- C8 witness: the idempotence theorem applied at `nn-hl`, whose cleaned
form `nn` is itself a fixpoint of `clean_pos_tag`. -/
theorem clean_pos_tag_idempotent_witness : clean_pos_tag (str "nn") = some (str "nn") :=
  clean_pos_tag_idempotent (str "nn-hl") (str "nn") (by decide)

/-! ### Character-class and split facts for the multi-slash-numeric branch -/

theorem isDigitC_facts {c : Char} (h : isDigitC c = true) :
    c ≠ '/' ∧ c ≠ '-' ∧ c ≠ '+' ∧ c ≠ '*' ∧ c ≠ 's' ∧ isLowerC c = false ∧
      isPunct c = false ∧ isQuoteSpace c = false ∧ isPySpace c = false := by
  have hb : 48 ≤ c.toNat ∧ c.toNat ≤ 57 := by
    simpa [isDigitC, Bool.and_eq_true, decide_eq_true_eq] using h
  refine ⟨?_, ?_, ?_, ?_, ?_, ?_, ?_, ?_, ?_⟩
  · rintro rfl; exact absurd h (by decide)
  · rintro rfl; exact absurd h (by decide)
  · rintro rfl; exact absurd h (by decide)
  · rintro rfl; exact absurd h (by decide)
  · rintro rfl; exact absurd h (by decide)
  · cases hl : isLowerC c
    · rfl
    · simp only [isLowerC, Bool.and_eq_true, decide_eq_true_eq] at hl
      omega
  · cases hp : isPunct c
    · rfl
    · simp only [isPunct, Bool.or_eq_true, Bool.and_eq_true, decide_eq_true_eq] at hp
      omega
  · cases hq : isQuoteSpace c
    · rfl
    · simp only [isQuoteSpace, Bool.or_eq_true, decide_eq_true_eq] at hq
      omega
  · cases hs : isPySpace c
    · rfl
    · simp only [isPySpace, Bool.or_eq_true, decide_eq_true_eq] at hs
      omega

theorem isLowerC_facts {c : Char} (h : isLowerC c = true) :
    c ≠ '/' ∧ c ≠ '-' ∧ c ≠ '+' ∧ c ≠ '*' ∧ isPySpace c = false := by
  have hb : 97 ≤ c.toNat ∧ c.toNat ≤ 122 := by
    simpa [isLowerC, Bool.and_eq_true, decide_eq_true_eq] using h
  refine ⟨?_, ?_, ?_, ?_, ?_⟩
  · rintro rfl; exact absurd h (by decide)
  · rintro rfl; exact absurd h (by decide)
  · rintro rfl; exact absurd h (by decide)
  · rintro rfl; exact absurd h (by decide)
  · cases hs : isPySpace c
    · rfl
    · simp only [isPySpace, Bool.or_eq_true, decide_eq_true_eq] at hs
      omega

theorem isDigitStr_parts {d : Str} (h : isDigitStr d = true) :
    d ≠ [] ∧ ∀ c ∈ d, isDigitC c = true := by
  simpa [isDigitStr, Bool.and_eq_true, decide_eq_true_eq, List.all_eq_true] using h

theorem isLowerStr_parts {t : Str} (h : isLowerStr t = true) :
    t ≠ [] ∧ ∀ c ∈ t, isLowerC c = true := by
  simpa [isLowerStr, Bool.and_eq_true, decide_eq_true_eq, List.all_eq_true] using h

theorem mem_of_getLast_some {l : Str} {c : Char} (h : l.getLast? = some c) : c ∈ l := by
  have h1 : l.reverse.head? = some c := by rw [List.head?_reverse]; exact h
  exact List.mem_reverse.mp (List.mem_of_mem_head? (Option.mem_def.mpr h1))

theorem stripBoth_eq_self_of_all (p : Char → Bool) (l : Str)
    (h : ∀ c ∈ l, p c = false) : stripBoth p l = l :=
  stripBoth_eq_self p l
    (fun c hc => h c (List.mem_of_mem_head? (Option.mem_def.mpr hc)))
    (fun c hc => h c (mem_of_getLast_some hc))

theorem splitOnChar_not_mem (sep : Char) (s : Str) (h : sep ∉ s) :
    splitOnChar sep s = [s] := by
  induction s with
  | nil => rfl
  | cons c cs ih =>
    have hc : ¬ c = sep := fun hx => h (hx ▸ List.mem_cons_self _ _)
    have hcs : sep ∉ cs := fun hx => h (List.mem_cons_of_mem _ hx)
    simp only [splitOnChar, if_neg hc, ih hcs]

theorem splitOnChar_append (sep : Char) (a rest : Str) (h : sep ∉ a) :
    splitOnChar sep (a ++ sep :: rest) = a :: splitOnChar sep rest := by
  induction a with
  | nil => simp [splitOnChar]
  | cons c a2 ih =>
    have hc : ¬ c = sep := fun hx => h (hx ▸ List.mem_cons_self _ _)
    have ha2 : sep ∉ a2 := fun hx => h (List.mem_cons_of_mem _ hx)
    simp only [List.cons_append, splitOnChar, if_neg hc, List.append_eq, ih ha2]

theorem stripPossessive_eq_self (w : Str) (h : ∀ c, w.getLast? = some c → c ≠ 's') :
    stripPossessive w = w := by
  rcases hrev : w.reverse with _ | ⟨x, rest⟩
  · simp [stripPossessive, hrev]
  · rcases rest with _ | ⟨y, rest2⟩
    · simp [stripPossessive, hrev]
    · have hx : w.getLast? = some x := by rw [← List.head?_reverse, hrev]; rfl
      simp only [stripPossessive, hrev]
      rw [if_neg (fun hc => h x hx hc.1)]

theorem clean_pos_tag_lower (t : Str) (h : isLowerStr t = true) : clean_pos_tag t = some t := by
  obtain ⟨hne, hall⟩ := isLowerStr_parts h
  by_cases hnil : t = str "nil"
  · rw [hnil]; decide
  · have hstar : '*' ∉ t := fun hm => (isLowerC_facts (hall _ hm)).2.2.2.1 rfl
    have hplus : '+' ∉ t := fun hm => (isLowerC_facts (hall _ hm)).2.2.1 rfl
    have hdash : '-' ∉ t := fun hm => (isLowerC_facts (hall _ hm)).2.1 rfl
    have hstrip : stripBoth isPySpace t = t :=
      stripBoth_eq_self_of_all _ _ (fun c hc => (isLowerC_facts (hall c hc)).2.2.2.2)
    simp only [clean_pos_tag]
    rw [if_neg (by rintro (hc | hc); exact hne hc; exact hnil hc),
      if_neg hstar, cleanCore_fixed t hplus hdash hstrip, if_neg hne]

theorem clean_word_digit_fraction (d1 d2 : Str) (h1 : isDigitStr d1 = true)
    (h2 : isDigitStr d2 = true) :
    clean_word (d1 ++ '/' :: d2) = some (d1 ++ '/' :: d2) := by
  obtain ⟨hne1, hall1⟩ := isDigitStr_parts h1
  obtain ⟨hne2, hall2⟩ := isDigitStr_parts h2
  have hallw : ∀ c ∈ d1 ++ '/' :: d2, isDigitC c = true ∨ c = '/' := by
    intro c hc
    rcases List.mem_append.mp hc with hc | hc
    · exact Or.inl (hall1 c hc)
    · rcases List.mem_cons.mp hc with hc | hc
      · exact Or.inr hc
      · exact Or.inl (hall2 c hc)
  have hstrip1 : stripBoth isQuoteSpace (d1 ++ '/' :: d2) = d1 ++ '/' :: d2 := by
    refine stripBoth_eq_self_of_all _ _ ?_
    intro c hc
    rcases hallw c hc with hd | rfl
    · exact (isDigitC_facts hd).2.2.2.2.2.2.2.1
    · decide
  have hposs : stripPossessive (d1 ++ '/' :: d2) = d1 ++ '/' :: d2 := by
    refine stripPossessive_eq_self _ ?_
    intro c hc
    rcases hallw c (mem_of_getLast_some hc) with hd | rfl
    · exact (isDigitC_facts hd).2.2.2.2.1
    · decide
  have hdashw : '-' ∉ d1 ++ '/' :: d2 := by
    intro hm
    rcases hallw _ hm with hd | hd
    · exact (isDigitC_facts hd).2.1 rfl
    · exact absurd hd (by decide)
  have hfrac : isFraction (d1 ++ '/' :: d2) = true := by
    have hs1 : '/' ∉ d1 := fun hm => (isDigitC_facts (hall1 _ hm)).1 rfl
    have hs2 : '/' ∉ d2 := fun hm => (isDigitC_facts (hall2 _ hm)).1 rfl
    simp only [isFraction, splitOnChar_append '/' d1 d2 hs1, splitOnChar_not_mem '/' d2 hs2]
    simp [h1, h2]
  have hpunct : ¬ ((d1 ++ '/' :: d2) ≠ [] ∧ ∀ c ∈ d1 ++ '/' :: d2, isPunct c) := by
    rintro ⟨-, hp⟩
    obtain ⟨c0, hc0⟩ := List.exists_mem_of_ne_nil d1 hne1
    have hx := hp c0 (List.mem_append.mpr (Or.inl hc0))
    rw [(isDigitC_facts (hall1 c0 hc0)).2.2.2.2.2.2.1] at hx
    exact absurd hx (by simp)
  simp only [clean_word, hstrip1, hposs]
  rw [if_neg hpunct]
  rw [if_neg (fun hc => hdashw hc.1)]
  rw [if_neg (fun hc => hdashw hc.1)]
  rw [if_pos hfrac]

/-- C2 (amended): for every token made of exactly two digit groups and a
lowercase-alphabetic tag, `d1/d2/tag`, resolution emits exactly one pair:
the word is the two digit groups rejoined with a slash (a simple fraction,
kept whole because `process_compound_word` declines it) and the tag is the
final segment.  (With three or more digit groups the compound-word path
splits the word instead; see the counterexample.) -/
theorem multi_slash_two_digit_groups_single_pair (st : AnalyzerState) (d1 d2 t : Str)
    (h1 : isDigitStr d1 = true) (h2 : isDigitStr d2 = true) (h3 : isLowerStr t = true) :
    process_tuple st (d1 ++ '/' :: (d2 ++ '/' :: t)) =
      recordGroup (recordPair st (d1 ++ '/' :: d2) t) t := by
  obtain ⟨hne1, hall1⟩ := isDigitStr_parts h1
  obtain ⟨hne2, hall2⟩ := isDigitStr_parts h2
  obtain ⟨hnet, hallt⟩ := isLowerStr_parts h3
  have hs1 : '/' ∉ d1 := fun hm => (isDigitC_facts (hall1 _ hm)).1 rfl
  have hs2 : '/' ∉ d2 := fun hm => (isDigitC_facts (hall2 _ hm)).1 rfl
  have hst : '/' ∉ t := fun hm => (isLowerC_facts (hallt _ hm)).1 rfl
  have hsplit : splitOnChar '/' (d1 ++ '/' :: (d2 ++ '/' :: t)) = [d1, d2, t] := by
    rw [splitOnChar_append '/' d1 _ hs1, splitOnChar_append '/' d2 _ hs2,
      splitOnChar_not_mem '/' t hst]
  have hld1 : isLowerStr d1 = false := by
    obtain ⟨c0, hc0⟩ := List.exists_mem_of_ne_nil d1 hne1
    have hx : d1.all isLowerC = false :=
      List.all_eq_false.mpr ⟨c0, hc0, by
        rw [(isDigitC_facts (hall1 c0 hc0)).2.2.2.2.2.1]; simp⟩
    simp [isLowerStr, hx]
  have hshared : matchesSharedTag (d1 ++ '/' :: (d2 ++ '/' :: t)) = false := by
    simp only [matchesSharedTag, hsplit]
    simp [hld1]
  have hmulti : matchesMultiNum (d1 ++ '/' :: (d2 ++ '/' :: t)) = true := by
    simp only [matchesMultiNum, hsplit]
    simp [List.all_cons, h1, h2, h3]
  have hfirst :
      ¬ ((d1 ++ '/' :: (d2 ++ '/' :: t)) = [] ∨ ¬ '/' ∈ d1 ++ '/' :: (d2 ++ '/' :: t)) := by
    rintro (hc | hc)
    · exact hne1 (List.append_eq_nil.mp hc).1
    · exact hc (List.mem_append.mpr (Or.inr (List.mem_cons_self _ _)))
  have hfrac : isFraction (d1 ++ '/' :: d2) = true := by
    simp only [isFraction, splitOnChar_append '/' d1 d2 hs1, splitOnChar_not_mem '/' d2 hs2]
    simp [h1, h2]
  have hcomp : process_compound_word st (d1 ++ '/' :: d2) t = (false, st) := by
    simp only [process_compound_word]
    rw [if_neg (fun hc => hc.2 hfrac)]
  have hword : joinChar '/' ([d1, d2, t] : List Str).dropLast = d1 ++ '/' :: d2 := rfl
  have hgl : ([d1, d2, t] : List Str).getLastD [] = t := rfl
  have hwpcond : ¬ (d1 ++ '/' :: d2 = [] ∨ t = []) := by
    rintro (hc | hc)
    · exact hne1 (List.append_eq_nil.mp hc).1
    · exact hnet hc
  simp only [process_tuple]
  rw [if_neg hfirst]
  rw [if_neg (by rw [hshared]; exact Bool.false_ne_true)]
  rw [if_pos hmulti, hsplit, hword, hgl]
  dsimp only
  rw [if_neg hwpcond]
  rw [clean_pos_tag_lower t h3]
  dsimp only
  rw [hcomp]
  dsimp only
  rw [if_neg (by exact Bool.false_ne_true)]
  rw [clean_word_digit_fraction d1 d2 h1 h2]

/-- C2 witness: the amended theorem applied at the spec's example `1/2/cd`
from empty counters. -/
theorem multi_slash_two_digit_groups_single_pair_witness :
    process_tuple initState (str "1/2/cd") =
      recordGroup (recordPair initState (str "1/2") (str "cd")) (str "cd") :=
  multi_slash_two_digit_groups_single_pair initState (str "1") (str "2") (str "cd")
    (by decide) (by decide) (by decide)

/-! ### Adequacy of the fuel bounds: the substitution shrinks the string and
the loop reaches a marker-free fixpoint -/

theorem sfxAt_head_parts {c a b : Char} {rest : Str} (h : sfxAt (c :: a :: b :: rest) = true) :
    c = '-' ∧ isSfx a b = true := by
  match rest with
  | [] =>
    simp only [sfxAt, Bool.and_eq_true, decide_eq_true_eq] at h
    exact ⟨h.1.1, h.1.2⟩
  | d :: r =>
    simp only [sfxAt, Bool.and_eq_true, decide_eq_true_eq] at h
    exact ⟨h.1.1, h.1.2⟩

theorem sfxAt_fourth_dash {c a b d : Char} {r : Str} (h : sfxAt (c :: a :: b :: d :: r) = true) :
    d = '-' := by
  simp only [sfxAt, Bool.and_eq_true, decide_eq_true_eq] at h
  exact h.2

theorem sfxAt_short_false (c : Char) : sfxAt [c] = false := rfl

theorem sfxAt_short2_false (c a : Char) : sfxAt [c, a] = false := rfl

theorem subSuffixFuel_shrink : ∀ (n : Nat) (s : Str), s.length ≤ n →
    hasSuffixMarker s = true → (subSuffixFuel n s).length < s.length := by
  intro n
  induction n with
  | zero =>
    intro s hlen hm
    have hs : s = [] := List.eq_nil_of_length_eq_zero (Nat.le_zero.mp hlen)
    rw [hs] at hm
    exact absurd hm (by decide)
  | succ n ih =>
    intro s hlen hm
    match s with
    | [] => exact absurd hm (by decide)
    | c :: cs =>
      simp only [subSuffixFuel]
      by_cases hc : c = '-'
      · rw [if_pos hc]
        match cs with
        | [] => simp [hasSuffixMarker, sfxAt] at hm
        | [a] =>
          rw [hasSuffixMarker, hasSuffixMarker, hasSuffixMarker] at hm
          simp [sfxAt] at hm
        | a :: b :: rest =>
          simp only
          by_cases hab : isSfx a b = true
          · rw [if_pos hab]
            match rest with
            | [] => simp
            | d :: rest2 =>
              simp only
              by_cases hd : d = '-'
              · rw [if_pos hd]
                have h1 : (subSuffixFuel n rest2).length ≤ rest2.length :=
                  (subSuffixFuel_sublist n rest2).length_le
                simp only [List.length_cons]
                omega
              · rw [if_neg hd]
                have hm2 : hasSuffixMarker (a :: b :: d :: rest2) = true := by
                  rw [hasSuffixMarker] at hm
                  simp only [Bool.or_eq_true] at hm
                  rcases hm with h | h
                  · exact absurd (sfxAt_fourth_dash h) hd
                  · exact h
                have := ih (a :: b :: d :: rest2)
                  (by simp only [List.length_cons] at hlen ⊢; omega) hm2
                simp only [List.length_cons] at this ⊢
                omega
          · rw [if_neg hab]
            have hm2 : hasSuffixMarker (a :: b :: rest) = true := by
              rw [hasSuffixMarker] at hm
              simp only [Bool.or_eq_true] at hm
              rcases hm with h | h
              · exact absurd (sfxAt_head_parts h).2 hab
              · exact h
            have := ih (a :: b :: rest)
              (by simp only [List.length_cons] at hlen ⊢; omega) hm2
            simp only [List.length_cons] at this ⊢
            omega
      · rw [if_neg hc]
        have hm2 : hasSuffixMarker cs = true := by
          rw [hasSuffixMarker] at hm
          simp only [Bool.or_eq_true] at hm
          rcases hm with h | h
          · match cs with
            | [] => exact absurd h (by simp [sfxAt])
            | [a] => exact absurd h (by simp [sfxAt])
            | a :: b :: rest => exact absurd (sfxAt_head_parts h).1 hc
          · exact h
        have := ih cs (by simp only [List.length_cons] at hlen; omega) hm2
        have h1 : (subSuffixFuel n cs).length ≤ cs.length := (subSuffixFuel_sublist n cs).length_le
        match cs with
        | [] => exact absurd hm2 (by decide)
        | x :: xs =>
          simp only [List.length_cons] at this ⊢
          omega

theorem subSuffixAll_shrink (s : Str) (hm : hasSuffixMarker s = true) :
    (subSuffixAll s).length < s.length :=
  subSuffixFuel_shrink s.length s le_rfl hm

theorem stripSfxLoop_adequate : ∀ (n : Nat) (s : Str), s.length ≤ n →
    hasSuffixMarker (stripSfxLoop n s) = false := by
  intro n
  induction n with
  | zero =>
    intro s hlen
    have hs : s = [] := List.eq_nil_of_length_eq_zero (Nat.le_zero.mp hlen)
    rw [hs]
    decide
  | succ n ih =>
    intro s hlen
    simp only [stripSfxLoop]
    by_cases hm : hasSuffixMarker s = true
    · rw [if_pos hm]
      exact ih (subSuffixAll s) (by have := subSuffixAll_shrink s hm; omega)
    · rw [if_neg hm]
      exact Bool.not_eq_true _ |>.mp hm

/-- The while loop of lines 68-69 always terminates with no further regex
match: fuel `s.length` is enough, as every firing substitution strictly
shrinks the string. -/
theorem stripSfx_no_marker (s : Str) : hasSuffixMarker (stripSfx s) = false :=
  stripSfxLoop_adequate s.length s le_rfl
